import Mathlib

/-!
Verification of the day-22 brick-settlement core
(`src/bin/day22/main.rs` plus `src/lib/grid.rs`).

The Rust data types and functions are embedded shallowly: machine
integers `i64` become `Int`, `usize` becomes `Nat`, `HashSet<usize>`
becomes `Finset Nat`, the `BTreeMap<Position, (i64, usize)>` height map
becomes a function `Position → Option (Int × Nat)`, and code that can
abort at runtime returns `Option` (with `none` for the fatal branches).
-/

/-- 2-D integer grid position, from `grid.rs` (`pub struct Position`). -/
structure Position where
  x : Int
  y : Int
deriving DecidableEq, Repr

/-- 3-D integer point, from `day22/main.rs` (`struct Position3`). -/
structure Position3 where
  x : Int
  y : Int
  z : Int
deriving DecidableEq, Repr

/-- Axis-aligned 2-D box, from `grid.rs` (`pub struct BoundingBox`). -/
structure BoundingBox where
  top_left : Position
  bottom_right : Position
deriving DecidableEq, Repr

/-- A brick, from `day22/main.rs` (`struct Brick`): two endpoints plus an
optional diagnostic label. -/
structure Brick where
  lower : Position3
  upper : Position3
  label : Option String
deriving DecidableEq, Repr

/-- `i64::cmp`, spelled out. -/
def icmp (a b : Int) : Ordering :=
  if a < b then .lt else if a = b then .eq else .gt

/-- `Ord for Position3`: compare by z, then x, then y. -/
def Position3.cmp (a b : Position3) : Ordering :=
  (icmp a.z b.z).then ((icmp a.x b.x).then (icmp a.y b.y))

/-- `Ord for Brick`: compare `lower`, then `upper`. -/
def Brick.cmp (a b : Brick) : Ordering :=
  (Position3.cmp a.lower b.lower).then (Position3.cmp a.upper b.upper)

/-- The derived lexicographic `Ord for (Brick, usize)` as a boolean
less-or-equal, used by `indexed_bricks.sort()`. -/
def pairLE (a b : Brick × Nat) : Bool :=
  match Brick.cmp a.1 b.1 with
  | .lt => true
  | .eq => decide (a.2 ≤ b.2)
  | .gt => false

/-- Insert one element into a list that is sorted by `pairLE`. -/
def insertPair (x : Brick × Nat) : List (Brick × Nat) → List (Brick × Nat)
  | [] => [x]
  | y :: ys => if pairLE x y then x :: y :: ys else y :: insertPair x ys

/-- Sorting of the indexed brick list, modelling `indexed_bricks.sort()`.
Since distinct entries carry distinct indices, `pairLE` is a total order
with no ties, so the sorted permutation is unique and any correct sort
(here insertion sort) produces exactly what the Rust sort produces. -/
def sortPairs : List (Brick × Nat) → List (Brick × Nat)
  | [] => []
  | x :: xs => insertPair x (sortPairs xs)

/-- `bricks.iter().enumerate().map(|(index, brick)| (brick.clone(), index))`. -/
def enumerate_from (n : Nat) : List Brick → List (Brick × Nat)
  | [] => []
  | b :: bs => (b, n) :: enumerate_from (n + 1) bs

/-- The inclusive integer range `lo..=hi` as a list. -/
def intRange (lo hi : Int) : List Int :=
  (List.range (hi + 1 - lo).toNat).map (fun (k : Nat) => lo + (k : Int))

/-- Modelled from the spec: `BoundingBox::surface` is used by day 22 but its
definition is not among the provided sources; spec section 4.2 (footprint
enumerator) describes it as the sequence of all integer ground-plane
positions within the inclusive box, on both the x and the y range. -/
def BoundingBox.surface (b : BoundingBox) : List Position :=
  (intRange b.top_left.x b.bottom_right.x).flatMap (fun x =>
    (intRange b.top_left.y b.bottom_right.y).map (fun y => ⟨x, y⟩))

/-- `Brick::plan`: the xy bounding box of a brick, taking min/max per axis. -/
def Brick.plan (b : Brick) : BoundingBox :=
  { top_left := { x := min b.lower.x b.upper.x, y := min b.lower.y b.upper.y },
    bottom_right := { x := max b.lower.x b.upper.x, y := max b.lower.y b.upper.y } }

/-- The settlement surface, `struct Surface`: a sparse map from ground-plane
cell to `(height, owning brick index)`. -/
abbrev Surface := Position → Option (Int × Nat)

/-- `Surface::default()`: the empty height map. -/
def surfaceEmpty : Surface := fun _ => none

/-- Point update of the height map. -/
def updateFn (s : Surface) (p : Position) (v : Int × Nat) : Surface :=
  fun q => if q = p then some v else s q

/-- `Surface::get`: height 0 and no owner for absent cells. -/
def Surface.get (s : Surface) (pos : Position) : Int × Option Nat :=
  match s pos with
  | some (h, index) => (h, some index)
  | none => (0, none)

/-- One cell of `Surface::set_height`: `entry(pos).and_modify(...).or_insert(...)`.
Returns `none` for the fatal branch (an existing entry whose height is not
strictly below `z` makes the Rust code abort). -/
def setHeightAt (s : Surface) (z : Int) (index : Nat) (pos : Position) : Option Surface :=
  match s pos with
  | some (existing_height, _) =>
      if existing_height ≥ z then none
      else some (updateFn s pos (z, index))
  | none => some (updateFn s pos (z, index))

/-- The loop body of `Surface::set_height` over a list of cells. -/
def setHeights (z : Int) (index : Nat) : Surface → List Position → Option Surface
  | s, [] => some s
  | s, p :: ps =>
    match setHeightAt s z index p with
    | none => none
    | some s' => setHeights z index s' ps

/-- `Surface::set_height`: write `(z, index)` at every cell of the footprint,
aborting (`none`) if any touched cell already has height `≥ z`. -/
def Surface.set_height (s : Surface) (bbox : BoundingBox) (z : Int) (index : Nat) :
    Option Surface :=
  setHeights z index s bbox.surface

/-- `fn just`: the singleton-or-empty set of an optional index. -/
def just (ix : Option Nat) : Finset Nat :=
  match ix with
  | some i => {i}
  | none => ∅

/-- `fn identify_supporting_bricks`: fold step that keeps the maximum
sampled height together with all owner indices at exactly that height. -/
def identify_supporting_bricks (acc : Option (Int × Finset Nat)) (h : Int)
    (maybe_index : Option Nat) : Option (Int × Finset Nat) :=
  match acc with
  | none => some (h, just maybe_index)
  | some (existing_height, bricks) =>
    if existing_height < h then some (h, just maybe_index)
    else if existing_height = h then
      some (h, match maybe_index with
               | some i => insert i bricks
               | none => bricks)
    else some (existing_height, bricks)

/-- The fold of `identify_supporting_bricks` over a list of samples. -/
def scan_fold (l : List (Int × Option Nat)) : Option (Int × Finset Nat) :=
  l.foldl (fun acc x => identify_supporting_bricks acc x.1 x.2) none

/-- The footprint scan in `compute_fallen_brick_positions`:
`brick_xy_bbox.surface().fold(None, ...)` sampling the height map. -/
def footprint_scan (heightmap : Surface) (bbox : BoundingBox) : Option (Int × Finset Nat) :=
  bbox.surface.foldl (fun acc pos =>
    identify_supporting_bricks acc (heightmap.get pos).1 (heightmap.get pos).2) none

/-- Shift both z coordinates of a brick down by `d`, leaving x, y and the
label unchanged. -/
def z_shift (b : Brick) (d : Int) : Brick :=
  { b with
    lower := { b.lower with z := b.lower.z - d },
    upper := { b.upper with z := b.upper.z - d } }

/-- The settling assignment in `compute_fallen_brick_positions`
(lines 394-401): `resting_z = highest_ground + 1`,
`fell_by = brick.lower.z - resting_z`, then both z fields drop by `fell_by`. -/
def fall_to (brick : Brick) (highest_ground : Int) : Brick :=
  z_shift brick (brick.lower.z - (highest_ground + 1))

/-- The candidate update (lines 408-421): when the settling brick has exactly
one supporting brick, remove that supporter from the candidate set;
otherwise leave the set unchanged. -/
def update_candidates (can_disintegrate supporting_bricks : Finset Nat) : Finset Nat :=
  if supporting_bricks.card = 1 then can_disintegrate \ supporting_bricks
  else can_disintegrate

/-- The main loop of `compute_fallen_brick_positions`: settle each indexed
brick in order against the current surface. `none` models the two fatal
branches (empty footprint, or a `set_height` invariant violation). -/
def settle_bricks : Surface → Finset Nat → List (Brick × Nat) →
    Option (List (Brick × Nat) × Finset Nat)
  | _, can_disintegrate, [] => some ([], can_disintegrate)
  | heightmap, can_disintegrate, (brick, index) :: rest =>
    match footprint_scan heightmap (Brick.plan brick) with
    | none => none
    | some (highest_ground, supporting_bricks) =>
      match Surface.set_height heightmap (Brick.plan brick)
          (fall_to brick highest_ground).upper.z index with
      | none => none
      | some heightmap' =>
        match settle_bricks heightmap'
            (update_candidates (insert index can_disintegrate) supporting_bricks) rest with
        | none => none
        | some (out, cdF) => some ((fall_to brick highest_ground, index) :: out, cdF)

/-- `fn compute_fallen_brick_positions`: pair bricks with their original
indices, sort, settle all, and return the settled bricks (sorted order)
together with the safely-disintegrable index set. -/
def compute_fallen_brick_positions (bricks : List Brick) :
    Option (List Brick × Finset Nat) :=
  match settle_bricks surfaceEmpty ∅ (sortPairs (enumerate_from 0 bricks)) with
  | none => none
  | some (settled, can_disintegrate) => some (settled.map Prod.fst, can_disintegrate)

/-- `fn part1`: the size of the disintegrable set. -/
def part1 (bricks : List Brick) : Option Nat :=
  (compute_fallen_brick_positions bricks).map (fun r => r.2.card)

/-- A brick occupies a ground-plane cell if the cell lies in its footprint. -/
def onCell (b : Brick) (p : Position) : Prop :=
  p ∈ (Brick.plan b).surface

instance (b : Brick) (p : Position) : Decidable (onCell b p) :=
  inferInstanceAs (Decidable (p ∈ (Brick.plan b).surface))

/-- Index `j` supports brick `c` within a settled configuration `L`:
some brick of `L` carrying index `j` shares a footprint cell with `c` and
its top is exactly one level below the bottom of `c`. -/
def supportsIn (L : List (Brick × Nat)) (j : Nat) (c : Brick) : Prop :=
  ∃ a, (a, j) ∈ L ∧ (∃ p, onCell a p ∧ onCell c p) ∧ a.upper.z + 1 = c.lower.z

/-- Index `i` is the sole supporter of brick `c` within `L`. -/
def sole_supporter_of (L : List (Brick × Nat)) (i : Nat) (c : Brick) : Prop :=
  supportsIn L i c ∧ ∀ j, supportsIn L j c → j = i

/-- The declarative description of the candidate set: an index is present
exactly when it belongs to a settled brick that is not the sole supporter
of any settled brick. -/
def cdInv (L : List (Brick × Nat)) (cd : Finset Nat) : Prop :=
  ∀ k, k ∈ cd ↔ ((∃ b, (b, k) ∈ L) ∧ ¬ ∃ c ∈ L, sole_supporter_of L k c.1)

/-- Correctness of the height map with respect to the settled bricks so far:
every entry is the top of a settled brick at that cell, every settled brick
lies at or below the recorded height of each cell it covers, and tops at a
shared cell are distinct between distinct settled bricks. -/
def SInv (L : List (Brick × Nat)) (s : Surface) : Prop :=
  (∀ p h i, s p = some (h, i) → ∃ b, (b, i) ∈ L ∧ onCell b p ∧ b.upper.z = h) ∧
  (∀ p b i, (b, i) ∈ L → onCell b p → ∃ h j, s p = some (h, j) ∧ b.upper.z ≤ h) ∧
  (∀ p b i b' i', (b, i) ∈ L → (b', i') ∈ L → onCell b p → onCell b' p →
    b.upper.z = b'.upper.z → b = b' ∧ i = i')

/-- Settling order: whenever two settled bricks share a footprint cell, the
later-settled one lies strictly above the earlier one. -/
def OrderInv (L : List (Brick × Nat)) : Prop :=
  L.Pairwise (fun x y => ∀ p, onCell x.1 p → onCell y.1 p → x.1.upper.z < y.1.lower.z)

/-- Ground contact: each settled brick rests at z = 1 or directly on top of
another settled brick at a shared footprint cell. -/
def GroundInv (L : List (Brick × Nat)) : Prop :=
  ∀ x ∈ L, x.1.lower.z = 1 ∨
    ∃ y ∈ L, y ≠ x ∧ (∃ p, onCell y.1 p ∧ onCell x.1 p) ∧
      y.1.upper.z + 1 = x.1.lower.z

/-- The standard 7-brick example (`get_unlabeled_example`). -/
def day22_example : List Brick :=
  [ ⟨⟨1, 0, 1⟩, ⟨1, 2, 1⟩, none⟩,
    ⟨⟨0, 0, 2⟩, ⟨2, 0, 2⟩, none⟩,
    ⟨⟨0, 2, 3⟩, ⟨2, 2, 3⟩, none⟩,
    ⟨⟨0, 0, 4⟩, ⟨0, 2, 4⟩, none⟩,
    ⟨⟨2, 0, 5⟩, ⟨2, 2, 5⟩, none⟩,
    ⟨⟨0, 1, 6⟩, ⟨2, 1, 6⟩, none⟩,
    ⟨⟨1, 1, 8⟩, ⟨1, 1, 9⟩, none⟩ ]

/-- Expected settled positions for the example, in sorted (= input) order:
A stays at z=1, B and C rest at z=2, D and E at z=3, F at z=4, G at z=5..6. -/
def day22_example_settled : List Brick :=
  [ ⟨⟨1, 0, 1⟩, ⟨1, 2, 1⟩, none⟩,
    ⟨⟨0, 0, 2⟩, ⟨2, 0, 2⟩, none⟩,
    ⟨⟨0, 2, 2⟩, ⟨2, 2, 2⟩, none⟩,
    ⟨⟨0, 0, 3⟩, ⟨0, 2, 3⟩, none⟩,
    ⟨⟨2, 0, 3⟩, ⟨2, 2, 3⟩, none⟩,
    ⟨⟨0, 1, 4⟩, ⟨2, 1, 4⟩, none⟩,
    ⟨⟨1, 1, 5⟩, ⟨1, 1, 6⟩, none⟩ ]

/-- A brick list with an unnormalized brick (`lower.z > upper.z`), which the
parser can never produce but the `Brick` type can represent. -/
def c2ex : List Brick :=
  [ ⟨⟨0, 0, 2⟩, ⟨0, 0, 0⟩, none⟩,
    ⟨⟨0, 0, 3⟩, ⟨0, 0, 3⟩, none⟩ ]

/-- Two identical overlapping bricks, both with all coordinates non-negative,
hence both acceptable to the parser. -/
def c8ex : List Brick :=
  [ ⟨⟨0, 0, 1⟩, ⟨0, 0, 5⟩, none⟩,
    ⟨⟨0, 0, 1⟩, ⟨0, 0, 5⟩, none⟩ ]

/-- Two bricks listed high-first, so that the input order differs from the
sorted settling order. -/
def c10ex : List Brick :=
  [ ⟨⟨5, 5, 9⟩, ⟨5, 5, 9⟩, none⟩,
    ⟨⟨0, 0, 1⟩, ⟨0, 0, 1⟩, none⟩ ]

/-- A single unit brick, used to instantiate witnesses. -/
def singleW : List Brick := [⟨⟨0, 0, 1⟩, ⟨0, 0, 1⟩, none⟩]

/-- Two bricks stacked directly on each other, used to instantiate witnesses. -/
def stackedW : List Brick :=
  [ ⟨⟨0, 0, 1⟩, ⟨0, 0, 1⟩, none⟩,
    ⟨⟨0, 0, 2⟩, ⟨0, 0, 2⟩, none⟩ ]

/-- The strict part of the brick ordering, written out over the six integer
coordinates: lower point by z, x, y, then upper point by z, x, y. -/
def brickLt (a b : Brick) : Prop :=
  (a.lower.z < b.lower.z ∨ (a.lower.z = b.lower.z ∧
    (a.lower.x < b.lower.x ∨ (a.lower.x = b.lower.x ∧ a.lower.y < b.lower.y)))) ∨
  ((a.lower.z = b.lower.z ∧ a.lower.x = b.lower.x ∧ a.lower.y = b.lower.y) ∧
   (a.upper.z < b.upper.z ∨ (a.upper.z = b.upper.z ∧
    (a.upper.x < b.upper.x ∨ (a.upper.x = b.upper.x ∧ a.upper.y < b.upper.y)))))

/-- The propositional form of `pairLE`: strictly smaller brick, or equal
coordinates with a smaller or equal original index. -/
def pairLEP (a b : Brick × Nat) : Prop :=
  brickLt a.1 b.1 ∨
    ((a.1.lower.z = b.1.lower.z ∧ a.1.lower.x = b.1.lower.x ∧ a.1.lower.y = b.1.lower.y) ∧
     (a.1.upper.z = b.1.upper.z ∧ a.1.upper.x = b.1.upper.x ∧ a.1.upper.y = b.1.upper.y) ∧
     a.2 ≤ b.2)

/-- A one-cell bounding box at the origin, used to instantiate witnesses. -/
def cellBox : BoundingBox := ⟨⟨0, 0⟩, ⟨0, 0⟩⟩

/-- A surface with a single entry of height 5 owned by brick 7, used to
instantiate witnesses. -/
def c5s : Surface := updateFn surfaceEmpty ⟨0, 0⟩ (5, 7)

/-- C1: the example settles to the stated z-ranges and part 1 answers 5. -/
theorem c1_example_settlement :
    (compute_fallen_brick_positions day22_example).map Prod.fst =
      some day22_example_settled ∧
    part1 day22_example = some 5 := by
  constructor <;> decide

/-- Membership in the inclusive integer range. -/
theorem mem_intRange {lo hi a : Int} : a ∈ intRange lo hi ↔ lo ≤ a ∧ a ≤ hi := by
  simp only [intRange, List.mem_map, List.mem_range]
  constructor
  · rintro ⟨k, hk, rfl⟩
    omega
  · rintro ⟨h1, h2⟩
    exact ⟨(a - lo).toNat, by omega, by omega⟩

/-- Membership in a bounding box's cell list is exactly the coordinate bounds. -/
theorem mem_surface {bb : BoundingBox} {p : Position} :
    p ∈ bb.surface ↔
      bb.top_left.x ≤ p.x ∧ p.x ≤ bb.bottom_right.x ∧
      bb.top_left.y ≤ p.y ∧ p.y ≤ bb.bottom_right.y := by
  obtain ⟨px, py⟩ := p
  simp only [BoundingBox.surface, List.mem_flatMap, List.mem_map]
  constructor
  · rintro ⟨x, hx, y, hy, h⟩
    cases h
    exact ⟨(mem_intRange.mp hx).1, (mem_intRange.mp hx).2,
      (mem_intRange.mp hy).1, (mem_intRange.mp hy).2⟩
  · rintro ⟨h1, h2, h3, h4⟩
    exact ⟨px, mem_intRange.mpr ⟨h1, h2⟩, py, mem_intRange.mpr ⟨h3, h4⟩, rfl⟩

/-- The footprint of any brick contains its top-left corner. -/
theorem plan_corner_mem (b : Brick) : (Brick.plan b).top_left ∈ (Brick.plan b).surface := by
  simp only [mem_surface, Brick.plan]
  constructor
  · exact le_refl _
  constructor
  · exact min_le_max
  constructor
  · exact le_refl _
  · exact min_le_max

/-- Z-shifting does not change a brick's footprint. -/
theorem plan_z_shift (b : Brick) (d : Int) : Brick.plan (z_shift b d) = Brick.plan b := rfl

/-- Z-shifting does not change the cells a brick covers. -/
theorem onCell_z_shift {b : Brick} {d : Int} {p : Position} :
    onCell (z_shift b d) p ↔ onCell b p := by
  simp only [onCell, plan_z_shift]

/-- Coordinates of a z-shifted brick. -/
theorem z_shift_coords (b : Brick) (d : Int) :
    (z_shift b d).lower.z = b.lower.z - d ∧ (z_shift b d).upper.z = b.upper.z - d ∧
    (z_shift b d).lower.x = b.lower.x ∧ (z_shift b d).lower.y = b.lower.y ∧
    (z_shift b d).upper.x = b.upper.x ∧ (z_shift b d).upper.y = b.upper.y ∧
    (z_shift b d).label = b.label := by
  simp [z_shift]

/-- Membership in `just`. -/
theorem mem_just {i : Nat} {mi : Option Nat} : i ∈ just mi ↔ mi = some i := by
  cases mi <;> simp [just, eq_comm]

/-- Accumulator characterization of the `identify_supporting_bricks` fold:
starting from `some (M₀, S₀)`, the fold returns the running maximum and the
owners achieving it. -/
theorem scan_fold_aux (l : List (Int × Option Nat)) :
    ∀ (M₀ : Int) (S₀ : Finset Nat), ∃ M S,
      l.foldl (fun acc x => identify_supporting_bricks acc x.1 x.2) (some (M₀, S₀)) =
        some (M, S) ∧
      M₀ ≤ M ∧ (∀ x ∈ l, x.1 ≤ M) ∧ (M = M₀ ∨ ∃ x ∈ l, x.1 = M) ∧
      (∀ i, i ∈ S ↔ ((M = M₀ ∧ i ∈ S₀) ∨ (M, some i) ∈ l)) := by
  induction l with
  | nil =>
    intro M₀ S₀
    exact ⟨M₀, S₀, rfl, le_refl _, by simp, Or.inl rfl, by simp⟩
  | cons x t ih =>
    intro M₀ S₀
    obtain ⟨h, mi⟩ := x
    rcases lt_trichotomy M₀ h with hlt | heq | hgt
    · obtain ⟨M, S, hfold, hle, hbound, hach, hmem⟩ := ih h (just mi)
      refine ⟨M, S, ?_, by omega, ?_, ?_, ?_⟩
      · rw [List.foldl_cons]
        have : identify_supporting_bricks (some (M₀, S₀)) h mi = some (h, just mi) := by
          simp [identify_supporting_bricks, hlt]
        rw [this]; exact hfold
      · intro y hy
        rcases List.mem_cons.mp hy with rfl | hy'
        · exact hle
        · exact hbound y hy'
      · rcases hach with hMh | ⟨y, hy, hyM⟩
        · exact Or.inr ⟨(h, mi), List.mem_cons_self _ _, hMh.symm⟩
        · exact Or.inr ⟨y, List.mem_cons_of_mem _ hy, hyM⟩
      · intro i
        have hMne : M ≠ M₀ := by omega
        rw [hmem i]
        simp only [List.mem_cons, Prod.mk.injEq, mem_just]
        constructor
        · rintro (⟨rfl, hj⟩ | hT)
          · exact Or.inr (Or.inl ⟨rfl, hj.symm⟩)
          · exact Or.inr (Or.inr hT)
        · rintro (⟨hM0, _⟩ | ⟨rfl, hj⟩ | hT)
          · exact absurd hM0 hMne
          · exact Or.inl ⟨rfl, hj.symm⟩
          · exact Or.inr hT
    · subst heq
      set S₀' : Finset Nat := (match mi with
        | some i => insert i S₀
        | none => S₀) with hS₀'
      obtain ⟨M, S, hfold, hle, hbound, hach, hmem⟩ := ih M₀ S₀'
      refine ⟨M, S, ?_, hle, ?_, ?_, ?_⟩
      · rw [List.foldl_cons]
        have : identify_supporting_bricks (some (M₀, S₀)) M₀ mi = some (M₀, S₀') := by
          simp [identify_supporting_bricks, hS₀']
        rw [this]; exact hfold
      · intro y hy
        rcases List.mem_cons.mp hy with rfl | hy'
        · exact hle
        · exact hbound y hy'
      · rcases hach with rfl | ⟨y, hy, hyM⟩
        · exact Or.inl rfl
        · exact Or.inr ⟨y, List.mem_cons_of_mem _ hy, hyM⟩
      · intro i
        have hS₀'mem : i ∈ S₀' ↔ (i ∈ S₀ ∨ mi = some i) := by
          cases mi with
          | none => simp [hS₀']
          | some v =>
            simp only [hS₀', Finset.mem_insert, Option.some.injEq]
            constructor
            · rintro (rfl | hj)
              · exact Or.inr rfl
              · exact Or.inl hj
            · rintro (hj | rfl)
              · exact Or.inr hj
              · exact Or.inl rfl
        rw [hmem i]
        simp only [List.mem_cons, Prod.mk.injEq, hS₀'mem]
        constructor
        · rintro (⟨rfl, hj | hj⟩ | hT)
          · exact Or.inl ⟨rfl, hj⟩
          · exact Or.inr (Or.inl ⟨rfl, hj.symm⟩)
          · exact Or.inr (Or.inr hT)
        · rintro (⟨rfl, hj⟩ | ⟨rfl, hj⟩ | hT)
          · exact Or.inl ⟨rfl, Or.inl hj⟩
          · exact Or.inl ⟨rfl, Or.inr hj.symm⟩
          · exact Or.inr hT
    · obtain ⟨M, S, hfold, hle, hbound, hach, hmem⟩ := ih M₀ S₀
      refine ⟨M, S, ?_, hle, ?_, ?_, ?_⟩
      · rw [List.foldl_cons]
        have h1 : ¬ (M₀ < h) := by omega
        have h2 : ¬ (M₀ = h) := by omega
        have : identify_supporting_bricks (some (M₀, S₀)) h mi = some (M₀, S₀) := by
          simp [identify_supporting_bricks, h1, h2]
        rw [this]; exact hfold
      · intro y hy
        rcases List.mem_cons.mp hy with rfl | hy'
        · omega
        · exact hbound y hy'
      · rcases hach with hMM | ⟨y, hy, hyM⟩
        · exact Or.inl hMM
        · exact Or.inr ⟨y, List.mem_cons_of_mem _ hy, hyM⟩
      · intro i
        rw [hmem i]
        simp only [List.mem_cons, Prod.mk.injEq]
        constructor
        · rintro (hI | hT)
          · exact Or.inl hI
          · exact Or.inr (Or.inr hT)
        · rintro (hI | ⟨rfl, _⟩ | hT)
          · exact Or.inl hI
          · omega
          · exact Or.inr hT

/-- The `identify_supporting_bricks` fold over a non-empty sample list yields
the maximum sampled height together with exactly the owners achieving it. -/
theorem scan_fold_spec (l : List (Int × Option Nat)) (hne : l ≠ []) :
    ∃ M S, scan_fold l = some (M, S) ∧
      (∀ x ∈ l, x.1 ≤ M) ∧ (∃ x ∈ l, x.1 = M) ∧
      (∀ i, i ∈ S ↔ (M, some i) ∈ l) := by
  match l, hne with
  | (h, mi) :: t, _ =>
    obtain ⟨M, S, hfold, hle, hbound, hach, hmem⟩ := scan_fold_aux t h (just mi)
    refine ⟨M, S, ?_, ?_, ?_, ?_⟩
    · rw [scan_fold, List.foldl_cons]
      exact hfold
    · intro y hy
      rcases List.mem_cons.mp hy with rfl | hy'
      · exact hle
      · exact hbound y hy'
    · rcases hach with hMh | ⟨y, hy, hyM⟩
      · exact ⟨(h, mi), List.mem_cons_self _ _, hMh.symm⟩
      · exact ⟨y, List.mem_cons_of_mem _ hy, hyM⟩
    · intro i
      rw [hmem i]
      simp only [List.mem_cons, Prod.mk.injEq, mem_just]
      constructor
      · rintro (⟨rfl, hj⟩ | hT)
        · exact Or.inl ⟨rfl, hj.symm⟩
        · exact Or.inr hT
      · rintro (⟨rfl, hj⟩ | hT)
        · exact Or.inl ⟨rfl, hj.symm⟩
        · exact Or.inr hT

/-- The footprint scan is the sample fold over the cell list. -/
theorem footprint_scan_eq (hm : Surface) (bbox : BoundingBox) :
    footprint_scan hm bbox = scan_fold (bbox.surface.map (fun p => hm.get p)) := by
  simp [footprint_scan, scan_fold, List.foldl_map]

/-- Characterization of a successful footprint scan: the result is the
maximum surface height over the footprint, attained somewhere, and the owner
set holds exactly the owners of the cells at that maximum. -/
theorem footprint_scan_spec (hm : Surface) (bbox : BoundingBox) (hg : Int) (sup : Finset Nat)
    (hscan : footprint_scan hm bbox = some (hg, sup)) :
    (∀ p ∈ bbox.surface, (hm.get p).1 ≤ hg) ∧
    (∃ p ∈ bbox.surface, (hm.get p).1 = hg) ∧
    (∀ i, i ∈ sup ↔ ∃ p ∈ bbox.surface, hm.get p = (hg, some i)) := by
  have hne : bbox.surface.map (fun p => hm.get p) ≠ [] := by
    intro hmt
    rw [footprint_scan_eq, hmt] at hscan
    simp [scan_fold] at hscan
  obtain ⟨M, S, heq, hbound, hach, hmem⟩ := scan_fold_spec _ hne
  rw [footprint_scan_eq, heq] at hscan
  have hMS : M = hg ∧ S = sup := by
    have := Option.some.inj hscan
    exact ⟨congrArg Prod.fst this, congrArg Prod.snd this⟩
  obtain ⟨rfl, rfl⟩ := hMS
  refine ⟨?_, ?_, ?_⟩
  · intro p hp
    exact hbound _ (List.mem_map_of_mem _ hp)
  · obtain ⟨y, hy, hyM⟩ := hach
    obtain ⟨p, hp, rfl⟩ := List.mem_map.mp hy
    exact ⟨p, hp, hyM⟩
  · intro i
    rw [hmem i]
    constructor
    · intro hmm
      obtain ⟨p, hp, hpe⟩ := List.mem_map.mp hmm
      exact ⟨p, hp, hpe⟩
    · rintro ⟨p, hp, hpe⟩
      exact List.mem_map.mpr ⟨p, hp, hpe⟩

/-- A successful single-cell update is the point overwrite, and demands a
strictly lower pre-existing height. -/
theorem setHeightAt_sound (s : Surface) (z : Int) (i : Nat) (q : Position) (s₁ : Surface)
    (hat : setHeightAt s z i q = some s₁) :
    s₁ = updateFn s q (z, i) ∧ ∀ h j, s q = some (h, j) → h < z := by
  unfold setHeightAt at hat
  split at hat
  next h₀ j₀ hq =>
    split at hat
    next hge => cases hat
    next hge =>
      refine ⟨(Option.some.inj hat).symm, ?_⟩
      intro h j hh
      rw [hq] at hh
      have : h₀ = h := congrArg Prod.fst (Option.some.inj hh)
      omega
  next hq =>
    refine ⟨(Option.some.inj hat).symm, ?_⟩
    intro h j hh
    rw [hq] at hh
    cases hh

/-- A successful `setHeights` run writes `(z, index)` at every listed cell,
leaves all other cells alone, and requires every pre-existing entry at a
listed cell to have had a strictly lower height. -/
theorem setHeights_sound (ps : List Position) :
    ∀ (s s' : Surface) (z : Int) (i : Nat), setHeights z i s ps = some s' →
      (∀ p, p ∉ ps → s' p = s p) ∧
      (∀ p ∈ ps, s' p = some (z, i) ∧ ∀ h j, s p = some (h, j) → h < z) := by
  induction ps with
  | nil =>
    intro s s' z i hrun
    cases hrun
    exact ⟨fun p _ => rfl, by simp⟩
  | cons q ps ih =>
    intro s s' z i hrun
    rw [setHeights] at hrun
    cases hat : setHeightAt s z i q with
    | none => rw [hat] at hrun; cases hrun
    | some s₁ =>
      rw [hat] at hrun
      obtain ⟨rfl, hqcond⟩ := setHeightAt_sound s z i q s₁ hat
      obtain ⟨hout, hin⟩ := ih _ _ _ _ hrun
      constructor
      · intro p hp
        have hpq : p ≠ q := fun hc => hp (hc ▸ List.mem_cons_self _ _)
        have hpt : p ∉ ps := fun hc => hp (List.mem_cons_of_mem _ hc)
        rw [hout p hpt, updateFn, if_neg hpq]
      · intro p hp
        rcases List.mem_cons.mp hp with rfl | hpt
        · by_cases hpt : p ∈ ps
          · refine ⟨(hin p hpt).1, hqcond⟩
          · refine ⟨?_, hqcond⟩
            rw [hout p hpt, updateFn, if_pos rfl]
        · refine ⟨(hin p hpt).1, ?_⟩
          intro h j hh
          by_cases hpq : p = q
          · subst hpq
            exact hqcond h j hh
          · have : updateFn s q (z, i) p = some (h, j) := by
              rw [updateFn, if_neg hpq]; exact hh
            exact (hin p hpt).2 h j this

/-- If some listed cell already carries an entry at height `≥ z`, the
`setHeights` run aborts. -/
theorem setHeights_fail (ps : List Position) :
    ∀ (s : Surface) (z : Int) (i : Nat) (p : Position) (h : Int) (j : Nat),
      p ∈ ps → s p = some (h, j) → z ≤ h → setHeights z i s ps = none := by
  induction ps with
  | nil =>
    intro s z i p h j hp
    cases hp
  | cons q ps ih =>
    intro s z i p h j hp hentry hzh
    rw [setHeights]
    cases hat : setHeightAt s z i q with
    | none => rfl
    | some s₁ =>
      obtain ⟨rfl, hqcond⟩ := setHeightAt_sound s z i q s₁ hat
      have hpq : p ≠ q := by
        intro hc
        subst hc
        have := hqcond h j hentry
        omega
      rcases List.mem_cons.mp hp with rfl | hpt
      · exact absurd rfl hpq
      · have : updateFn s q (z, i) p = some (h, j) := by
          rw [updateFn, if_neg hpq]; exact hentry
        exact ih _ _ _ _ _ _ hpt this hzh

/-- C3: a settling brick comes to rest with its lower z at
`highest_ground + 1`, where `highest_ground` is the maximum surface height
over its footprint; both z coordinates shift by the same fall amount
`original_lower_z - resting_lower_z`, and the brick's height is unchanged. -/
theorem c3_fall_step (hm : Surface) (brick : Brick) (hg : Int) (sup : Finset Nat)
    (hscan : footprint_scan hm (Brick.plan brick) = some (hg, sup)) :
    (fall_to brick hg).lower.z = hg + 1 ∧
    (fall_to brick hg).lower.z = brick.lower.z - (brick.lower.z - (hg + 1)) ∧
    (fall_to brick hg).upper.z = brick.upper.z - (brick.lower.z - (hg + 1)) ∧
    (fall_to brick hg).upper.z - (fall_to brick hg).lower.z =
      brick.upper.z - brick.lower.z ∧
    (∀ p ∈ (Brick.plan brick).surface, (hm.get p).1 ≤ hg) ∧
    (∃ p ∈ (Brick.plan brick).surface, (hm.get p).1 = hg) := by
  obtain ⟨hmax, hach, _⟩ := footprint_scan_spec hm _ hg sup hscan
  refine ⟨?_, ?_, ?_, ?_, hmax, hach⟩ <;> (simp [fall_to, z_shift]; try ring)

/-- Witness for C3 at the empty surface and a unit brick. -/
theorem c3_fall_step_witness :
    (fall_to ⟨⟨0, 0, 1⟩, ⟨0, 0, 1⟩, none⟩ 0).lower.z = 0 + 1 ∧
    (fall_to ⟨⟨0, 0, 1⟩, ⟨0, 0, 1⟩, none⟩ 0).lower.z = 1 - (1 - (0 + 1)) ∧
    (fall_to ⟨⟨0, 0, 1⟩, ⟨0, 0, 1⟩, none⟩ 0).upper.z = 1 - (1 - (0 + 1)) ∧
    (fall_to ⟨⟨0, 0, 1⟩, ⟨0, 0, 1⟩, none⟩ 0).upper.z -
      (fall_to ⟨⟨0, 0, 1⟩, ⟨0, 0, 1⟩, none⟩ 0).lower.z = 1 - 1 ∧
    (∀ p ∈ (Brick.plan ⟨⟨0, 0, 1⟩, ⟨0, 0, 1⟩, none⟩).surface,
      (surfaceEmpty.get p).1 ≤ 0) ∧
    (∃ p ∈ (Brick.plan ⟨⟨0, 0, 1⟩, ⟨0, 0, 1⟩, none⟩).surface,
      (surfaceEmpty.get p).1 = 0) :=
  c3_fall_step surfaceEmpty ⟨⟨0, 0, 1⟩, ⟨0, 0, 1⟩, none⟩ 0 ∅ (by decide)

/-- C4: the footprint scan reduces the sampled (height, owner) pairs to the
maximum height and the set of all owners achieving exactly that maximum
(inclusive on ties), and a candidate index is removed by `update_candidates`
exactly when the owner set is that single index. -/
theorem c4_scan_and_removal (l : List (Int × Option Nat)) (hne : l ≠ []) :
    (∃ M S, scan_fold l = some (M, S) ∧
      (∀ x ∈ l, x.1 ≤ M) ∧ (∃ x ∈ l, x.1 = M) ∧
      (∀ i, i ∈ S ↔ (M, some i) ∈ l)) ∧
    (∀ (cd sup : Finset Nat) (i : Nat), i ∈ cd →
      (i ∉ update_candidates cd sup ↔ sup = {i})) := by
  refine ⟨scan_fold_spec l hne, ?_⟩
  intro cd sup i hi
  unfold update_candidates
  by_cases hc : sup.card = 1
  · rw [if_pos hc]
    constructor
    · intro hnot
      obtain ⟨a, ha⟩ := Finset.card_eq_one.mp hc
      have hisup : i ∈ sup := by
        by_contra hns
        exact hnot (Finset.mem_sdiff.mpr ⟨hi, hns⟩)
      subst ha
      have : i = a := Finset.mem_singleton.mp hisup
      subst this
      rfl
    · intro hsup
      subst hsup
      intro hmem
      exact (Finset.mem_sdiff.mp hmem).2 (Finset.mem_singleton_self i)
  · rw [if_neg hc]
    constructor
    · intro hnot
      exact absurd hi hnot
    · intro hsup
      subst hsup
      exact absurd (Finset.card_singleton i) hc

/-- Witness for C4 at a three-sample list with a tie at the maximum. -/
theorem c4_scan_and_removal_witness :
    (∃ M S, scan_fold [((0 : Int), (none : Option Nat)), (3, some 2), (3, some 5)] =
        some (M, S) ∧
      (∀ x ∈ [((0 : Int), (none : Option Nat)), (3, some 2), (3, some 5)], x.1 ≤ M) ∧
      (∃ x ∈ [((0 : Int), (none : Option Nat)), (3, some 2), (3, some 5)], x.1 = M) ∧
      (∀ i, i ∈ S ↔ (M, some i) ∈
        [((0 : Int), (none : Option Nat)), (3, some 2), (3, some 5)])) ∧
    (∀ (cd sup : Finset Nat) (i : Nat), i ∈ cd →
      (i ∉ update_candidates cd sup ↔ sup = {i})) :=
  c4_scan_and_removal [((0 : Int), (none : Option Nat)), (3, some 2), (3, some 5)]
    (by decide)

/-- C5: `Surface::set_height` on success inserts-or-overwrites `(z, index)`
at every footprint cell, each such pre-existing entry having had a strictly
lower height (so recorded heights only grow), leaves other cells unchanged;
and any footprint cell whose entry is not strictly below `z` makes the call
abort. -/
theorem c5_set_height_spec (s : Surface) (bbox : BoundingBox) (z : Int) (i : Nat) :
    (∀ s', Surface.set_height s bbox z i = some s' →
      (∀ p ∈ bbox.surface, s' p = some (z, i) ∧ ∀ h j, s p = some (h, j) → h < z) ∧
      (∀ p, p ∉ bbox.surface → s' p = s p) ∧
      (∀ p h j h' j', s p = some (h, j) → s' p = some (h', j') → h ≤ h')) ∧
    (∀ p ∈ bbox.surface, ∀ h j, s p = some (h, j) → z ≤ h →
      Surface.set_height s bbox z i = none) := by
  constructor
  · intro s' hrun
    obtain ⟨hout, hin⟩ := setHeights_sound bbox.surface s s' z i hrun
    refine ⟨hin, hout, ?_⟩
    intro p h j h' j' hp hp'
    by_cases hmem : p ∈ bbox.surface
    · rw [(hin p hmem).1] at hp'
      have hz : z = h' := congrArg Prod.fst (Option.some.inj hp')
      have := (hin p hmem).2 h j hp
      omega
    · rw [hout p hmem, hp] at hp'
      have : h = h' := congrArg Prod.fst (Option.some.inj hp')
      omega
  · intro p hp h j hentry hzh
    exact setHeights_fail bbox.surface s z i p h j hp hentry hzh

/-- Witness for C5: a successful overwrite above an existing entry, and the
aborting call when the new height is not strictly greater. -/
theorem c5_set_height_spec_witness :
    ((updateFn c5s ⟨0, 0⟩ (9, 3)) ⟨0, 0⟩ = some (9, 3) ∧ (5 : Int) < 9) ∧
    Surface.set_height c5s cellBox 3 1 = none := by
  constructor
  · have h := (c5_set_height_spec c5s cellBox 9 3).1 (updateFn c5s ⟨0, 0⟩ (9, 3)) rfl
    have h2 := h.1 ⟨0, 0⟩ (by decide)
    exact ⟨h2.1, h2.2 5 7 (by decide)⟩
  · exact (c5_set_height_spec c5s cellBox 3 1).2 ⟨0, 0⟩ (by decide) 5 7 (by decide) (by decide)

/-- C9: every brick's plan is componentwise ordered (min/max per axis), so
its footprint enumeration is non-empty and the footprint fold always
produces `some`; the zero-area fatal branch is unreachable. -/
theorem c9_plan_nonempty : ∀ b : Brick,
    (Brick.plan b).top_left.x ≤ (Brick.plan b).bottom_right.x ∧
    (Brick.plan b).top_left.y ≤ (Brick.plan b).bottom_right.y ∧
    (Brick.plan b).surface ≠ [] ∧
    ∀ hm : Surface, (footprint_scan hm (Brick.plan b)).isSome = true := by
  intro b
  have hne : (Brick.plan b).surface ≠ [] := by
    intro hc
    have := plan_corner_mem b
    rw [hc] at this
    cases this
  refine ⟨min_le_max, min_le_max, hne, ?_⟩
  intro hm
  have hne' : (Brick.plan b).surface.map (fun p => hm.get p) ≠ [] := by
    simpa using hne
  obtain ⟨M, S, heq, _, _, _⟩ := scan_fold_spec _ hne'
  rw [footprint_scan_eq, heq]
  rfl

/-- `Ordering.then` equals `lt` iff the first comparison is `lt`, or it is
`eq` and the second is `lt`. -/
theorem then_eq_lt {o₁ o₂ : Ordering} :
    o₁.then o₂ = .lt ↔ (o₁ = .lt ∨ (o₁ = .eq ∧ o₂ = .lt)) := by
  cases o₁ <;> simp [Ordering.then]

/-- `Ordering.then` equals `eq` iff both comparisons are `eq`. -/
theorem then_eq_eq {o₁ o₂ : Ordering} :
    o₁.then o₂ = .eq ↔ (o₁ = .eq ∧ o₂ = .eq) := by
  cases o₁ <;> simp [Ordering.then]

/-- `icmp` result `lt` means strictly less. -/
theorem icmp_lt_iff {a b : Int} : icmp a b = .lt ↔ a < b := by
  unfold icmp
  split_ifs with h1 h2 <;> simp <;> omega

/-- `icmp` result `eq` means equal. -/
theorem icmp_eq_iff {a b : Int} : icmp a b = .eq ↔ a = b := by
  unfold icmp
  split_ifs with h1 h2 <;> simp <;> omega

/-- `Position3.cmp` result `lt` spelled out on coordinates. -/
theorem p3cmp_lt_iff {a b : Position3} :
    Position3.cmp a b = .lt ↔
      (a.z < b.z ∨ (a.z = b.z ∧ (a.x < b.x ∨ (a.x = b.x ∧ a.y < b.y)))) := by
  unfold Position3.cmp
  rw [then_eq_lt, then_eq_lt, icmp_lt_iff, icmp_eq_iff, icmp_lt_iff, icmp_eq_iff, icmp_lt_iff]

/-- `Position3.cmp` result `eq` spelled out on coordinates. -/
theorem p3cmp_eq_iff {a b : Position3} :
    Position3.cmp a b = .eq ↔ (a.z = b.z ∧ a.x = b.x ∧ a.y = b.y) := by
  unfold Position3.cmp
  rw [then_eq_eq, then_eq_eq, icmp_eq_iff, icmp_eq_iff, icmp_eq_iff]

/-- `Brick.cmp` result `lt` is `brickLt`. -/
theorem brick_cmp_lt_iff {a b : Brick} : Brick.cmp a b = .lt ↔ brickLt a b := by
  unfold Brick.cmp brickLt
  rw [then_eq_lt, p3cmp_lt_iff, p3cmp_eq_iff, p3cmp_lt_iff]

/-- `Brick.cmp` result `eq` is coordinate equality of both endpoints. -/
theorem brick_cmp_eq_iff {a b : Brick} :
    Brick.cmp a b = .eq ↔
      ((a.lower.z = b.lower.z ∧ a.lower.x = b.lower.x ∧ a.lower.y = b.lower.y) ∧
       (a.upper.z = b.upper.z ∧ a.upper.x = b.upper.x ∧ a.upper.y = b.upper.y)) := by
  unfold Brick.cmp
  rw [then_eq_eq, p3cmp_eq_iff, p3cmp_eq_iff]

/-- The boolean pair order agrees with its propositional form. -/
theorem pairLE_iff (a b : Brick × Nat) : pairLE a b = true ↔ pairLEP a b := by
  have hlt := @brick_cmp_lt_iff a.1 b.1
  have heq := @brick_cmp_eq_iff a.1 b.1
  unfold pairLE pairLEP
  cases hc : Brick.cmp a.1 b.1 with
  | lt =>
    exact iff_of_true rfl (Or.inl (hlt.mp hc))
  | eq =>
    rw [hc] at hlt heq
    simp only [decide_eq_true_eq]
    obtain ⟨hL, hU⟩ := heq.mp rfl
    constructor
    · intro hle
      exact Or.inr ⟨hL, hU, hle⟩
    · rintro (hb | ⟨_, _, hle⟩)
      · unfold brickLt at hb
        omega
      · exact hle
  | gt =>
    rw [hc] at hlt heq
    simp only [Bool.false_eq_true, false_iff]
    rintro (hb | ⟨hL, hU, _⟩)
    · exact absurd (hlt.mpr hb) (by decide)
    · exact absurd (heq.mpr ⟨hL, hU⟩) (by decide)

set_option maxHeartbeats 1000000 in
/-- The pair order is total. -/
theorem pairLEP_total (a b : Brick × Nat) : pairLEP a b ∨ pairLEP b a := by
  unfold pairLEP brickLt
  omega

set_option maxHeartbeats 1000000 in
/-- The pair order is transitive. -/
theorem pairLEP_trans {a b c : Brick × Nat} (h1 : pairLEP a b) (h2 : pairLEP b c) :
    pairLEP a c := by
  unfold pairLEP brickLt at h1 h2 ⊢
  omega

/-- `insertPair` inserts, up to permutation. -/
theorem insertPair_perm (x : Brick × Nat) (l : List (Brick × Nat)) :
    (insertPair x l).Perm (x :: l) := by
  induction l with
  | nil => exact List.Perm.refl _
  | cons y ys ih =>
    rw [insertPair]
    by_cases h : pairLE x y
    · rw [if_pos h]
    · rw [if_neg h]
      exact (ih.cons y).trans (List.Perm.swap x y ys)

/-- `sortPairs` permutes its input. -/
theorem sortPairs_perm (l : List (Brick × Nat)) : (sortPairs l).Perm l := by
  induction l with
  | nil => exact List.Perm.refl _
  | cons x xs ih =>
    rw [sortPairs]
    exact (insertPair_perm x (sortPairs xs)).trans (ih.cons x)

/-- Membership after insertion. -/
theorem mem_insertPair {z x : Brick × Nat} {l : List (Brick × Nat)} :
    z ∈ insertPair x l ↔ z = x ∨ z ∈ l := by
  rw [(insertPair_perm x l).mem_iff, List.mem_cons]

/-- `insertPair` preserves sortedness. -/
theorem insertPair_sorted (x : Brick × Nat) (l : List (Brick × Nat))
    (hl : l.Pairwise (fun a b => pairLE a b = true)) :
    (insertPair x l).Pairwise (fun a b => pairLE a b = true) := by
  induction l with
  | nil => simp [insertPair]
  | cons y ys ih =>
    rw [insertPair]
    obtain ⟨hy, hys⟩ := List.pairwise_cons.mp hl
    by_cases h : pairLE x y
    · rw [if_pos h]
      refine List.pairwise_cons.mpr ⟨?_, hl⟩
      intro z hz
      rcases List.mem_cons.mp hz with rfl | hz'
      · exact h
      · exact (pairLE_iff x z).mpr
          (pairLEP_trans ((pairLE_iff x y).mp h) ((pairLE_iff y z).mp (hy z hz')))
    · rw [if_neg h]
      refine List.pairwise_cons.mpr ⟨?_, ih hys⟩
      intro z hz
      rcases mem_insertPair.mp hz with rfl | hz'
      · rcases pairLEP_total y z with hyz | hzy
        · exact (pairLE_iff y z).mpr hyz
        · exact absurd ((pairLE_iff z y).mpr hzy) (by simpa using h)
      · exact hy z hz'

/-- `sortPairs` sorts by the pair order. -/
theorem sortPairs_sorted (l : List (Brick × Nat)) :
    (sortPairs l).Pairwise (fun a b => pairLE a b = true) := by
  induction l with
  | nil => simp [sortPairs]
  | cons x xs ih =>
    rw [sortPairs]
    exact insertPair_sorted x (sortPairs xs) ih

/-- The indices produced by enumeration are consecutive from `n`. -/
theorem enumerate_from_map_snd (l : List Brick) :
    ∀ n : Nat, (enumerate_from n l).map Prod.snd = List.range' n l.length := by
  induction l with
  | nil => intro n; rfl
  | cons b bs ih =>
    intro n
    rw [enumerate_from, List.map_cons, ih (n + 1)]
    rfl

/-- The sorted enumeration carries distinct indices. -/
theorem sorted_indices_nodup (bricks : List Brick) :
    ((sortPairs (enumerate_from 0 bricks)).map Prod.snd).Nodup := by
  have hperm := (sortPairs_perm (enumerate_from 0 bricks)).map Prod.snd
  rw [enumerate_from_map_snd] at hperm
  exact hperm.nodup_iff.mpr (List.nodup_range' _ _)

/-- A successful run of the settlement loop keeps the indices in order and
replaces each brick by a z-shifted copy of itself. -/
theorem settle_bricks_shape (l : List (Brick × Nat)) :
    ∀ (s : Surface) (cd : Finset Nat) (out : List (Brick × Nat)) (cdF : Finset Nat),
      settle_bricks s cd l = some (out, cdF) →
      List.Forall₂ (fun x y => y.2 = x.2 ∧ ∃ d, y.1 = z_shift x.1 d) l out := by
  induction l with
  | nil =>
    intro s cd out cdF hrun
    rw [settle_bricks] at hrun
    cases hrun
    exact List.Forall₂.nil
  | cons bi rest ih =>
    intro s cd out cdF hrun
    obtain ⟨brick, index⟩ := bi
    rw [settle_bricks] at hrun
    cases hscan : footprint_scan s (Brick.plan brick) with
    | none => simp only [hscan] at hrun; cases hrun
    | some r =>
      obtain ⟨hg, sup⟩ := r
      simp only [hscan] at hrun
      cases hset : Surface.set_height s (Brick.plan brick) (fall_to brick hg).upper.z index with
      | none => simp only [hset] at hrun; cases hrun
      | some s' =>
        simp only [hset] at hrun
        cases hrec : settle_bricks s' (update_candidates (insert index cd) sup) rest with
        | none => simp only [hrec] at hrun; cases hrun
        | some pr =>
          obtain ⟨outRest, cdF'⟩ := pr
          simp only [hrec] at hrun
          have hout : out = (fall_to brick hg, index) :: outRest ∧ cdF = cdF' := by
            have := Option.some.inj hrun
            exact ⟨(congrArg Prod.fst this).symm, (congrArg Prod.snd this).symm⟩
          obtain ⟨rfl, rfl⟩ := hout
          exact List.Forall₂.cons ⟨rfl, brick.lower.z - (hg + 1), rfl⟩
            (ih s' _ outRest _ hrec)

/-- A successful settlement loop determines the result of
`compute_fallen_brick_positions`. -/
theorem compute_eq_of_settle (bricks : List Brick) (pairs : List (Brick × Nat))
    (cdF : Finset Nat)
    (hrun : settle_bricks surfaceEmpty ∅ (sortPairs (enumerate_from 0 bricks)) =
      some (pairs, cdF)) :
    compute_fallen_brick_positions bricks = some (pairs.map Prod.fst, cdF) := by
  rw [compute_fallen_brick_positions, hrun]

/-- The output of a `Forall₂`-aligned settlement run keeps the index column. -/
theorem forall₂_map_snd {l₁ l₂ : List (Brick × Nat)}
    (h : List.Forall₂ (fun x y => y.2 = x.2 ∧ ∃ d, y.1 = z_shift x.1 d) l₁ l₂) :
    l₂.map Prod.snd = l₁.map Prod.snd := by
  induction h with
  | nil => rfl
  | cons hxy _ ih => simp [ih, hxy.1]

/-- C10: the settled list follows the sorted order of the indexed bricks
(the `Brick` ordering of the original, pre-settlement bricks, with the
original index as tie-break), not the input order; concretely, on `c10ex`
the first output brick is the settled form of the second input brick. -/
theorem c10_output_order (bricks : List Brick) (pairs : List (Brick × Nat))
    (cdF : Finset Nat)
    (hrun : settle_bricks surfaceEmpty ∅ (sortPairs (enumerate_from 0 bricks)) =
      some (pairs, cdF)) :
    compute_fallen_brick_positions bricks = some (pairs.map Prod.fst, cdF) ∧
    (sortPairs (enumerate_from 0 bricks)).Pairwise (fun a b => pairLE a b = true) ∧
    (sortPairs (enumerate_from 0 bricks)).Perm (enumerate_from 0 bricks) ∧
    List.Forall₂ (fun x y => y.2 = x.2 ∧ ∃ d, y.1 = z_shift x.1 d)
      (sortPairs (enumerate_from 0 bricks)) pairs ∧
    ((compute_fallen_brick_positions c10ex).map (fun r => r.1.map (fun b => b.lower.x)) =
        some [0, 5] ∧
      c10ex.map (fun b => b.lower.x) = [5, 0]) :=
  ⟨compute_eq_of_settle bricks pairs cdF hrun, sortPairs_sorted _, sortPairs_perm _,
    settle_bricks_shape _ _ _ _ _ hrun, by decide, by decide⟩

/-- Witness for C10 at the single-brick input. -/
theorem c10_output_order_witness :
    compute_fallen_brick_positions singleW =
      some (([(⟨⟨0, 0, 1⟩, ⟨0, 0, 1⟩, none⟩, 0)] : List (Brick × Nat)).map Prod.fst, {0}) ∧
    (sortPairs (enumerate_from 0 singleW)).Pairwise (fun a b => pairLE a b = true) ∧
    (sortPairs (enumerate_from 0 singleW)).Perm (enumerate_from 0 singleW) ∧
    List.Forall₂ (fun x y => y.2 = x.2 ∧ ∃ d, y.1 = z_shift x.1 d)
      (sortPairs (enumerate_from 0 singleW)) [(⟨⟨0, 0, 1⟩, ⟨0, 0, 1⟩, none⟩, 0)] ∧
    ((compute_fallen_brick_positions c10ex).map (fun r => r.1.map (fun b => b.lower.x)) =
        some [0, 5] ∧
      c10ex.map (fun b => b.lower.x) = [5, 0]) :=
  c10_output_order singleW [(⟨⟨0, 0, 1⟩, ⟨0, 0, 1⟩, none⟩, 0)] {0} (by decide)

/-- C8 counterexample: both bricks of `c8ex` are parser-acceptable (all six
coordinates non-negative), the run completes, yet the settled brick
`(0,0,6)~(0,0,10)` has lower z 6, strictly above the initial lower z of
every input brick (both are 1): settling is not always downward. -/
theorem c8_counterexample :
    (∀ b ∈ c8ex, 0 ≤ b.lower.x ∧ 0 ≤ b.lower.y ∧ 0 ≤ b.lower.z ∧
      0 ≤ b.upper.x ∧ 0 ≤ b.upper.y ∧ 0 ≤ b.upper.z) ∧
    compute_fallen_brick_positions c8ex =
      some ([⟨⟨0, 0, 1⟩, ⟨0, 0, 5⟩, none⟩, ⟨⟨0, 0, 6⟩, ⟨0, 0, 10⟩, none⟩], {1}) ∧
    (∀ a ∈ c8ex, ¬((⟨⟨0, 0, 6⟩, ⟨0, 0, 10⟩, none⟩ : Brick).lower.z ≤ a.lower.z)) ∧
    (⟨⟨0, 0, 6⟩, ⟨0, 0, 10⟩, none⟩ : Brick) ∈
      [⟨⟨0, 0, 1⟩, ⟨0, 0, 5⟩, none⟩, (⟨⟨0, 0, 6⟩, ⟨0, 0, 10⟩, none⟩ : Brick)] :=
  ⟨by decide, by decide, by decide, by decide⟩

/-- C8 (amended): the engine settles each brick exactly once — the output
indices are a permutation of the input indices and each output brick is the
input brick with both z coordinates shifted by one common amount (x, y,
label and height unchanged), never touched again — but the shift need not
be downward when input bricks overlap. -/
theorem c8_amended_lifecycle (bricks : List Brick) (pairs : List (Brick × Nat))
    (cdF : Finset Nat)
    (hrun : settle_bricks surfaceEmpty ∅ (sortPairs (enumerate_from 0 bricks)) =
      some (pairs, cdF)) :
    compute_fallen_brick_positions bricks = some (pairs.map Prod.fst, cdF) ∧
    List.Forall₂ (fun x y => y.2 = x.2 ∧ ∃ d, y.1 = z_shift x.1 d)
      (sortPairs (enumerate_from 0 bricks)) pairs ∧
    (pairs.map Prod.snd).Perm (List.range bricks.length) := by
  refine ⟨compute_eq_of_settle bricks pairs cdF hrun,
    settle_bricks_shape _ _ _ _ _ hrun, ?_⟩
  have hsnd : pairs.map Prod.snd = (sortPairs (enumerate_from 0 bricks)).map Prod.snd :=
    forall₂_map_snd (settle_bricks_shape _ _ _ _ _ hrun)
  rw [hsnd]
  have hp := (sortPairs_perm (enumerate_from 0 bricks)).map Prod.snd
  rw [enumerate_from_map_snd] at hp
  rw [List.range_eq_range']
  exact hp

/-- Witness for C8 (amended) at the single-brick input. -/
theorem c8_amended_lifecycle_witness :
    compute_fallen_brick_positions singleW =
      some (([(⟨⟨0, 0, 1⟩, ⟨0, 0, 1⟩, none⟩, 0)] : List (Brick × Nat)).map Prod.fst, {0}) ∧
    List.Forall₂ (fun x y => y.2 = x.2 ∧ ∃ d, y.1 = z_shift x.1 d)
      (sortPairs (enumerate_from 0 singleW)) [(⟨⟨0, 0, 1⟩, ⟨0, 0, 1⟩, none⟩, 0)] ∧
    (([(⟨⟨0, 0, 1⟩, ⟨0, 0, 1⟩, none⟩, 0)] : List (Brick × Nat)).map Prod.snd).Perm
      (List.range singleW.length) :=
  c8_amended_lifecycle singleW [(⟨⟨0, 0, 1⟩, ⟨0, 0, 1⟩, none⟩, 0)] {0} (by decide)

/-- A settled brick's lower z is one above the scanned ground height. -/
theorem fall_to_lower (b : Brick) (hg : Int) : (fall_to b hg).lower.z = hg + 1 := by
  simp [fall_to, z_shift]

/-- A settled brick's upper z keeps its distance to the lower z. -/
theorem fall_to_upper (b : Brick) (hg : Int) :
    (fall_to b hg).upper.z = b.upper.z - (b.lower.z - (hg + 1)) := by
  simp [fall_to, z_shift]

/-- Settling preserves the normalization `lower.z ≤ upper.z`. -/
theorem fall_to_norm {b : Brick} (hg : Int) (h : b.lower.z ≤ b.upper.z) :
    (fall_to b hg).lower.z ≤ (fall_to b hg).upper.z := by
  simp [fall_to, z_shift]
  omega

/-- Settling does not change covered cells. -/
theorem onCell_fall_to {b : Brick} {hg : Int} {p : Position} :
    onCell (fall_to b hg) p ↔ p ∈ (Brick.plan b).surface :=
  onCell_z_shift

/-- One settlement step preserves the surface invariant, places the new
brick strictly above every already-settled brick sharing a cell, and leaves
the new brick either on the ground or directly atop a settled brick. -/
theorem settle_step_inv
    (hist : List (Brick × Nat)) (s s' : Surface) (brick : Brick) (index : Nat)
    (hg : Int) (sup : Finset Nat)
    (hS : SInv hist s)
    (hscan : footprint_scan s (Brick.plan brick) = some (hg, sup))
    (hset : Surface.set_height s (Brick.plan brick) (fall_to brick hg).upper.z index =
      some s') :
    SInv (hist ++ [(fall_to brick hg, index)]) s' ∧
    (∀ x ∈ hist, ∀ p, onCell x.1 p → onCell (fall_to brick hg) p →
      x.1.upper.z < (fall_to brick hg).lower.z) ∧
    ((fall_to brick hg).lower.z = 1 ∨
      ∃ y ∈ hist, (∃ p, onCell y.1 p ∧ onCell (fall_to brick hg) p) ∧
        y.1.upper.z + 1 = (fall_to brick hg).lower.z) := by
  obtain ⟨hSa, hSb, hSc⟩ := hS
  obtain ⟨hmax, hach, hsup⟩ := footprint_scan_spec s _ hg sup hscan
  obtain ⟨hout, hin⟩ :=
    setHeights_sound (Brick.plan brick).surface s s' (fall_to brick hg).upper.z index hset
  have hlow : (fall_to brick hg).lower.z = hg + 1 := fall_to_lower brick hg
  have honc : ∀ p, onCell (fall_to brick hg) p ↔ p ∈ (Brick.plan brick).surface :=
    fun p => onCell_fall_to
  have hbound : ∀ x ∈ hist, ∀ p, onCell x.1 p → p ∈ (Brick.plan brick).surface →
      x.1.upper.z ≤ hg := by
    rintro ⟨xb, xi⟩ hx p hxp hp
    obtain ⟨h₀, j₀, hsp, hle⟩ := hSb p xb xi hx hxp
    have hfst : (s.get p).1 = h₀ := by simp [Surface.get, hsp]
    have := hmax p hp
    simp only [hfst] at this
    exact le_trans hle this
  have hordx : ∀ x ∈ hist, ∀ p, onCell x.1 p → onCell (fall_to brick hg) p →
      x.1.upper.z < (fall_to brick hg).lower.z := by
    intro x hx p hxp hfp
    have := hbound x hx p hxp ((honc p).mp hfp)
    omega
  have hground : (fall_to brick hg).lower.z = 1 ∨
      ∃ y ∈ hist, (∃ p, onCell y.1 p ∧ onCell (fall_to brick hg) p) ∧
        y.1.upper.z + 1 = (fall_to brick hg).lower.z := by
    obtain ⟨p, hp, hpv⟩ := hach
    cases hsp : s p with
    | none =>
      left
      have h0 : (s.get p).1 = 0 := by simp [Surface.get, hsp]
      rw [h0] at hpv
      omega
    | some v =>
      obtain ⟨h₀, j₀⟩ := v
      have hg0 : h₀ = hg := by simpa [Surface.get, hsp] using hpv
      obtain ⟨a, haH, hap, haz⟩ := hSa p h₀ j₀ hsp
      right
      refine ⟨(a, j₀), haH, ⟨p, hap, (honc p).mpr hp⟩, ?_⟩
      show a.upper.z + 1 = (fall_to brick hg).lower.z
      omega
  refine ⟨⟨?_, ?_, ?_⟩, hordx, hground⟩
  · intro p h i hsp'
    by_cases hp : p ∈ (Brick.plan brick).surface
    · rw [(hin p hp).1] at hsp'
      have h1 : (fall_to brick hg).upper.z = h := congrArg Prod.fst (Option.some.inj hsp')
      have h2 : index = i := congrArg Prod.snd (Option.some.inj hsp')
      subst h2
      exact ⟨fall_to brick hg,
        List.mem_append_right _ (List.mem_singleton_self _), (honc p).mpr hp, h1⟩
    · rw [hout p hp] at hsp'
      obtain ⟨b, hbH, hbp, hbz⟩ := hSa p h i hsp'
      exact ⟨b, List.mem_append_left _ hbH, hbp, hbz⟩
  · intro p b i hbL hbp
    rcases List.mem_append.mp hbL with hbH | hbN
    · by_cases hp : p ∈ (Brick.plan brick).surface
      · obtain ⟨h₀, j₀, hsp, hle⟩ := hSb p b i hbH hbp
        have hlt := (hin p hp).2 h₀ j₀ hsp
        exact ⟨(fall_to brick hg).upper.z, index, (hin p hp).1, by omega⟩
      · obtain ⟨h₀, j₀, hsp, hle⟩ := hSb p b i hbH hbp
        exact ⟨h₀, j₀, by rw [hout p hp]; exact hsp, hle⟩
    · have hbeq : b = fall_to brick hg ∧ i = index := by simpa using hbN
      obtain ⟨rfl, rfl⟩ := hbeq
      have hp : p ∈ (Brick.plan brick).surface := (honc p).mp hbp
      exact ⟨(fall_to brick hg).upper.z, i, (hin p hp).1, le_refl _⟩
  · intro p b i b' i' hbL hb'L hbp hb'p hzz
    rcases List.mem_append.mp hbL with hbH | hbN
    · rcases List.mem_append.mp hb'L with hb'H | hb'N
      · exact hSc p b i b' i' hbH hb'H hbp hb'p hzz
      · have hb'eq : b' = fall_to brick hg ∧ i' = index := by simpa using hb'N
        obtain ⟨rfl, rfl⟩ := hb'eq
        have hp : p ∈ (Brick.plan brick).surface := (honc p).mp hb'p
        obtain ⟨h₀, j₀, hsp, hle⟩ := hSb p b i hbH hbp
        have hlt := (hin p hp).2 h₀ j₀ hsp
        omega
    · have hbeq : b = fall_to brick hg ∧ i = index := by simpa using hbN
      obtain ⟨rfl, rfl⟩ := hbeq
      rcases List.mem_append.mp hb'L with hb'H | hb'N
      · have hp : p ∈ (Brick.plan brick).surface := (honc p).mp hbp
        obtain ⟨h₀, j₀, hsp, hle⟩ := hSb p b' i' hb'H hb'p
        have hlt := (hin p hp).2 h₀ j₀ hsp
        omega
      · have hb'eq : b' = fall_to brick hg ∧ i' = i := by simpa using hb'N
        obtain ⟨rfl, rfl⟩ := hb'eq
        exact ⟨rfl, rfl⟩

/-- Reading a cell gives exactly the stored entry. -/
theorem get_eq_some_iff {s : Surface} {p : Position} {h : Int} {j : Nat} :
    s.get p = (h, some j) ↔ s p = some (h, j) := by
  cases hq : s p with
  | none => simp [Surface.get, hq]
  | some v =>
    obtain ⟨h₀, j₀⟩ := v
    simp [Surface.get, hq]

/-- Membership in the candidate update. -/
theorem mem_update_candidates {cd sup : Finset Nat} {k : Nat} :
    k ∈ update_candidates cd sup ↔ k ∈ cd ∧ ¬(sup.card = 1 ∧ k ∈ sup) := by
  unfold update_candidates
  by_cases hc : sup.card = 1
  · rw [if_pos hc]
    simp [Finset.mem_sdiff, hc]
  · rw [if_neg hc]
    simp [hc]

/-- A one-element owner set containing `k` is the singleton of `k`. -/
theorem card_one_mem_iff {sup : Finset Nat} {k : Nat} :
    (sup.card = 1 ∧ k ∈ sup) ↔ sup = {k} := by
  constructor
  · rintro ⟨hc, hk⟩
    obtain ⟨a, rfl⟩ := Finset.card_eq_one.mp hc
    rw [Finset.mem_singleton] at hk
    subst hk
    rfl
  · rintro rfl
    exact ⟨Finset.card_singleton k, Finset.mem_singleton_self k⟩

/-- One settlement step preserves the declarative description of the
candidate set, assuming the bricks involved are normalized. -/
theorem cd_step
    (hist : List (Brick × Nat)) (s : Surface) (brick : Brick) (index : Nat)
    (hg : Int) (sup : Finset Nat) (cd : Finset Nat)
    (hS : SInv hist s)
    (hscan : footprint_scan s (Brick.plan brick) = some (hg, sup))
    (hidx : index ∉ hist.map Prod.snd)
    (hnormH : ∀ x ∈ hist, x.1.lower.z ≤ x.1.upper.z)
    (hnormB : brick.lower.z ≤ brick.upper.z)
    (hord : ∀ x ∈ hist, ∀ p, onCell x.1 p → onCell (fall_to brick hg) p →
      x.1.upper.z < (fall_to brick hg).lower.z)
    (hCd : cdInv hist cd) :
    cdInv (hist ++ [(fall_to brick hg, index)])
      (update_candidates (insert index cd) sup) := by
  obtain ⟨hSa, hSb, hSc⟩ := hS
  obtain ⟨hmax, hach, hsup⟩ := footprint_scan_spec s _ hg sup hscan
  have hlow := fall_to_lower brick hg
  have hnormN : (fall_to brick hg).lower.z ≤ (fall_to brick hg).upper.z :=
    fall_to_norm hg hnormB
  have hsupp_hist : ∀ j c, supportsIn hist j c → j ∈ hist.map Prod.snd := by
    rintro j c ⟨a, haH, _, _⟩
    exact List.mem_map.mpr ⟨(a, j), haH, rfl⟩
  have hF2 : ∀ j, supportsIn (hist ++ [(fall_to brick hg, index)]) j (fall_to brick hg) ↔
      j ∈ sup := by
    intro j
    constructor
    · rintro ⟨a, haL, ⟨p, hap, hfp⟩, haz⟩
      rcases List.mem_append.mp haL with haH | haN
      · have hp : p ∈ (Brick.plan brick).surface := onCell_fall_to.mp hfp
        obtain ⟨h₀, j₀, hsp, hle⟩ := hSb p a j haH hap
        have hfst : (s.get p).1 = h₀ := by simp [Surface.get, hsp]
        have hhg : h₀ ≤ hg := by have := hmax p hp; rwa [hfst] at this
        have haz' : a.upper.z = hg := by omega
        obtain ⟨a'', ha''H, ha''p, ha''z⟩ := hSa p h₀ j₀ hsp
        obtain ⟨heqa, heqj⟩ :=
          hSc p a'' j₀ a j ha''H haH ha''p hap (by rw [ha''z]; omega)
        rw [heqa] at ha''z
        rw [heqj] at hsp
        have hh0 : h₀ = hg := by omega
        rw [hh0] at hsp
        exact (hsup j).mpr ⟨p, hp, get_eq_some_iff.mpr hsp⟩
      · exfalso
        have haeq : a = fall_to brick hg ∧ j = index := by simpa using haN
        obtain ⟨rfl, _⟩ := haeq
        omega
    · intro hj
      obtain ⟨p, hp, hpe⟩ := (hsup j).mp hj
      have hsp := get_eq_some_iff.mp hpe
      obtain ⟨a, haH, hap, haz⟩ := hSa p hg j hsp
      exact ⟨a, List.mem_append_left _ haH, ⟨p, hap, onCell_fall_to.mpr hp⟩, by omega⟩
  have hF1 : ∀ c ∈ hist, ∀ j,
      (supportsIn (hist ++ [(fall_to brick hg, index)]) j c.1 ↔ supportsIn hist j c.1) := by
    intro c hc j
    constructor
    · rintro ⟨a, haL, ⟨p, hap, hcp⟩, haz⟩
      rcases List.mem_append.mp haL with haH | haN
      · exact ⟨a, haH, ⟨p, hap, hcp⟩, haz⟩
      · exfalso
        have haeq : a = fall_to brick hg ∧ j = index := by simpa using haN
        obtain ⟨rfl, _⟩ := haeq
        have h1 := hord c hc p hcp hap
        have h2 := hnormH c hc
        omega
    · rintro ⟨a, haH, hshare, haz⟩
      exact ⟨a, List.mem_append_left _ haH, hshare, haz⟩
  have hF4 : index ∉ sup := by
    intro hmem
    obtain ⟨p, hp, hpe⟩ := (hsup index).mp hmem
    obtain ⟨a, haH, _, _⟩ := hSa p hg index (get_eq_some_iff.mp hpe)
    exact hidx (List.mem_map.mpr ⟨(a, index), haH, rfl⟩)
  intro k
  rw [mem_update_candidates, Finset.mem_insert]
  have hExist : (∃ b, (b, k) ∈ hist ++ [(fall_to brick hg, index)]) ↔
      ((∃ b, (b, k) ∈ hist) ∨ k = index) := by
    constructor
    · rintro ⟨b, hbL⟩
      rcases List.mem_append.mp hbL with hbH | hbN
      · exact Or.inl ⟨b, hbH⟩
      · have : b = fall_to brick hg ∧ k = index := by simpa using hbN
        exact Or.inr this.2
    · rintro (⟨b, hbH⟩ | rfl)
      · exact ⟨b, List.mem_append_left _ hbH⟩
      · exact ⟨fall_to brick hg, List.mem_append_right _ (List.mem_singleton_self _)⟩
  have hSoleSplit :
      (∃ c ∈ hist ++ [(fall_to brick hg, index)],
        sole_supporter_of (hist ++ [(fall_to brick hg, index)]) k c.1) ↔
      ((∃ c ∈ hist, sole_supporter_of hist k c.1) ∨ sup = {k}) := by
    constructor
    · rintro ⟨c, hcL, hk, huni⟩
      rcases List.mem_append.mp hcL with hcH | hcN
      · refine Or.inl ⟨c, hcH, (hF1 c hcH k).mp hk, ?_⟩
        intro j hj
        exact huni j ((hF1 c hcH j).mpr hj)
      · have hceq : c = (fall_to brick hg, index) := by simpa using hcN
        subst hceq
        refine Or.inr (Finset.eq_singleton_iff_unique_mem.mpr ⟨(hF2 k).mp hk, ?_⟩)
        intro j hj
        exact huni j ((hF2 j).mpr hj)
    · rintro (⟨c, hcH, hk, huni⟩ | hsupk)
      · refine ⟨c, List.mem_append_left _ hcH, (hF1 c hcH k).mpr hk, ?_⟩
        intro j hj
        exact huni j ((hF1 c hcH j).mp hj)
      · subst hsupk
        refine ⟨(fall_to brick hg, index),
          List.mem_append_right _ (List.mem_singleton_self _),
          (hF2 k).mpr (Finset.mem_singleton_self k), ?_⟩
        intro j hj
        exact Finset.mem_singleton.mp ((hF2 j).mp hj)
  rw [hExist, hSoleSplit, card_one_mem_iff]
  by_cases hki : k = index
  · subst hki
    have hkcd : k ∉ cd := by
      intro hkc
      obtain ⟨b, hbH⟩ := ((hCd k).mp hkc).1
      exact hidx (List.mem_map.mpr ⟨(b, k), hbH, rfl⟩)
    have hnosole : ¬ ∃ c ∈ hist, sole_supporter_of hist k c.1 := by
      rintro ⟨c, hcH, hk, _⟩
      exact hidx (hsupp_hist k c.1 hk)
    have hnosup : sup ≠ {k} := by
      intro hc
      exact hF4 (hc ▸ Finset.mem_singleton_self k)
    constructor
    · rintro ⟨_, _⟩
      refine ⟨Or.inr rfl, ?_⟩
      rintro (h | h)
      · exact hnosole h
      · exact hnosup h
    · rintro ⟨_, _⟩
      exact ⟨Or.inl rfl, hnosup⟩
  · have hkcd := hCd k
    constructor
    · rintro ⟨hkm, hns⟩
      rcases hkm with hke | hkc
      · exact absurd hke hki
      · obtain ⟨hex, hnos⟩ := hkcd.mp hkc
        refine ⟨Or.inl hex, ?_⟩
        rintro (h | h)
        · exact hnos h
        · exact hns h
    · rintro ⟨hex, hns⟩
      have hnos : ¬ ∃ c ∈ hist, sole_supporter_of hist k c.1 := fun h => hns (Or.inl h)
      have hnsup : ¬ sup = {k} := fun h => hns (Or.inr h)
      rcases hex with hex | hke
      · exact ⟨Or.inr (hkcd.mpr ⟨hex, hnos⟩), hnsup⟩
      · exact absurd hke hki

/-- Main settlement induction: from a valid history, a successful run
extends the ordering and ground-contact invariants to the whole output, and
(for normalized bricks) keeps the candidate set equal to its declarative
description. -/
theorem settle_bricks_inv (rest : List (Brick × Nat)) :
    ∀ (hist : List (Brick × Nat)) (s : Surface) (cd : Finset Nat) (hn : Prop),
      SInv hist s →
      OrderInv hist →
      GroundInv hist →
      ((hist ++ rest).map Prod.snd).Nodup →
      (hn → ∀ x ∈ hist, x.1.lower.z ≤ x.1.upper.z) →
      (hn → ∀ x ∈ rest, x.1.lower.z ≤ x.1.upper.z) →
      (hn → cdInv hist cd) →
      ∀ (out : List (Brick × Nat)) (cdF : Finset Nat),
      settle_bricks s cd rest = some (out, cdF) →
      OrderInv (hist ++ out) ∧ GroundInv (hist ++ out) ∧
      (hn → (∀ x ∈ out, x.1.lower.z ≤ x.1.upper.z) ∧ cdInv (hist ++ out) cdF) := by
  induction rest with
  | nil =>
    intro hist s cd hn hS hO hG hNd hNh hNr hCd out cdF hrun
    rw [settle_bricks] at hrun
    have h1 : [] = out := congrArg Prod.fst (Option.some.inj hrun)
    have h2 : cd = cdF := congrArg Prod.snd (Option.some.inj hrun)
    subst h1
    subst h2
    simp only [List.append_nil]
    exact ⟨hO, hG, fun h => ⟨by simp, hCd h⟩⟩
  | cons bi rest ih =>
    intro hist s cd hn hS hO hG hNd hNh hNr hCd out cdF hrun
    obtain ⟨brick, index⟩ := bi
    rw [settle_bricks] at hrun
    cases hscan : footprint_scan s (Brick.plan brick) with
    | none => simp only [hscan] at hrun; cases hrun
    | some r =>
      obtain ⟨hg, sup⟩ := r
      simp only [hscan] at hrun
      cases hset : Surface.set_height s (Brick.plan brick)
          (fall_to brick hg).upper.z index with
      | none => simp only [hset] at hrun; cases hrun
      | some s' =>
        simp only [hset] at hrun
        cases hrec : settle_bricks s' (update_candidates (insert index cd) sup) rest with
        | none => simp only [hrec] at hrun; cases hrun
        | some pr =>
          obtain ⟨outRest, cdR⟩ := pr
          simp only [hrec] at hrun
          have hout : out = (fall_to brick hg, index) :: outRest ∧ cdF = cdR := by
            have := Option.some.inj hrun
            exact ⟨(congrArg Prod.fst this).symm, (congrArg Prod.snd this).symm⟩
          obtain ⟨rfl, rfl⟩ := hout
          have hidx : index ∉ hist.map Prod.snd := by
            intro hc
            have hNd2 := hNd
            rw [List.map_append, List.map_cons] at hNd2
            obtain ⟨_, _, hdisj⟩ := List.nodup_append.mp hNd2
            exact hdisj hc (List.mem_cons_self _ _)
          obtain ⟨hS', hordN, hgroundN⟩ :=
            settle_step_inv hist s s' brick index hg sup hS hscan hset
          have hO' : OrderInv (hist ++ [(fall_to brick hg, index)]) := by
            rw [OrderInv, List.pairwise_append]
            refine ⟨hO, List.pairwise_singleton _ _, ?_⟩
            intro x hx y hy
            have hyeq : y = (fall_to brick hg, index) := by simpa using hy
            subst hyeq
            intro p hxp hyp
            exact hordN x hx p hxp hyp
          have hG' : GroundInv (hist ++ [(fall_to brick hg, index)]) := by
            intro x hx
            rcases List.mem_append.mp hx with hxH | hxN
            · rcases hG x hxH with h1 | ⟨y, hyH, hyne, hshare, hz⟩
              · exact Or.inl h1
              · exact Or.inr ⟨y, List.mem_append_left _ hyH, hyne, hshare, hz⟩
            · have hxeq : x = (fall_to brick hg, index) := by simpa using hxN
              subst hxeq
              rcases hgroundN with h1 | ⟨y, hyH, hshare, hz⟩
              · exact Or.inl h1
              · refine Or.inr ⟨y, List.mem_append_left _ hyH, ?_, hshare, hz⟩
                intro hc
                exact hidx (List.mem_map.mpr ⟨y, hyH, by rw [hc]⟩)
          have hNd' : (((hist ++ [(fall_to brick hg, index)]) ++ rest).map Prod.snd).Nodup := by
            have heq : ((hist ++ [(fall_to brick hg, index)]) ++ rest).map Prod.snd
                = (hist ++ (brick, index) :: rest).map Prod.snd := by
              simp [List.map_append]
            rw [heq]
            exact hNd
          have hNh' : hn → ∀ x ∈ hist ++ [(fall_to brick hg, index)],
              x.1.lower.z ≤ x.1.upper.z := by
            intro h x hx
            rcases List.mem_append.mp hx with hxH | hxN
            · exact hNh h x hxH
            · have hxeq : x = (fall_to brick hg, index) := by simpa using hxN
              subst hxeq
              exact fall_to_norm hg (hNr h (brick, index) (List.mem_cons_self _ _))
          have hNr' : hn → ∀ x ∈ rest, x.1.lower.z ≤ x.1.upper.z :=
            fun h x hx => hNr h x (List.mem_cons_of_mem _ hx)
          have hCd' : hn → cdInv (hist ++ [(fall_to brick hg, index)])
              (update_candidates (insert index cd) sup) := by
            intro h
            exact cd_step hist s brick index hg sup cd hS hscan hidx (hNh h)
              (hNr h (brick, index) (List.mem_cons_self _ _)) hordN (hCd h)
          obtain ⟨hOf, hGf, hnf⟩ := ih (hist ++ [(fall_to brick hg, index)]) s'
            (update_candidates (insert index cd) sup) hn hS' hO' hG' hNd' hNh' hNr' hCd'
            outRest _ hrec
          rw [List.append_assoc, List.singleton_append] at hOf hGf hnf
          refine ⟨hOf, hGf, ?_⟩
          intro h
          obtain ⟨hno, hcdf⟩ := hnf h
          refine ⟨?_, hcdf⟩
          intro x hx
          rcases List.mem_cons.mp hx with rfl | hx'
          · exact fall_to_norm hg (hNr h (brick, index) (List.mem_cons_self _ _))
          · exact hno x hx'

/-- Distinct settled entries never share an index. -/
theorem nodup_snd_unique {L : List (Brick × Nat)} (h : (L.map Prod.snd).Nodup)
    {a b : Brick} {k : Nat} (ha : (a, k) ∈ L) (hb : (b, k) ∈ L) : a = b := by
  induction L with
  | nil => cases ha
  | cons x t ihL =>
    rw [List.map_cons] at h
    obtain ⟨hx, ht⟩ := List.nodup_cons.mp h
    rcases List.mem_cons.mp ha with heqa | ha'
    · rcases List.mem_cons.mp hb with heqb | hb'
      · rw [← heqb] at heqa
        exact congrArg Prod.fst heqa
      · exfalso
        rw [← heqa] at hx
        exact hx (List.mem_map.mpr ⟨(b, k), hb', rfl⟩)
    · rcases List.mem_cons.mp hb with heqb | hb'
      · exfalso
        rw [← heqb] at hx
        exact hx (List.mem_map.mpr ⟨(a, k), ha', rfl⟩)
      · exact ihL ht ha' hb'

/-- Enumerated pairs come from the underlying list. -/
theorem enumerate_from_mem_fst {l : List Brick} :
    ∀ {n : Nat} {b : Brick} {i : Nat}, (b, i) ∈ enumerate_from n l → b ∈ l := by
  induction l with
  | nil => intro n b i h; cases h
  | cons x t ihl =>
    intro n b i h
    rcases List.mem_cons.mp h with heq | h'
    · have hb : b = x := congrArg Prod.fst heq
      rw [hb]
      exact List.mem_cons_self _ _
    · exact List.mem_cons_of_mem _ (ihl h')

/-- The run-level invariant package for a full settlement from the empty
surface and the sorted enumeration. -/
theorem settle_run_inv (bricks : List Brick) (pairs : List (Brick × Nat))
    (cdF : Finset Nat)
    (hrun : settle_bricks surfaceEmpty ∅ (sortPairs (enumerate_from 0 bricks)) =
      some (pairs, cdF)) :
    OrderInv pairs ∧ GroundInv pairs ∧
    ((∀ b ∈ bricks, b.lower.z ≤ b.upper.z) →
      (∀ x ∈ pairs, x.1.lower.z ≤ x.1.upper.z) ∧ cdInv pairs cdF) := by
  have hS0 : SInv [] surfaceEmpty := by
    refine ⟨?_, ?_, ?_⟩
    · intro p h i hc
      simp [surfaceEmpty] at hc
    · intro p b i hmem
      exact absurd hmem (List.not_mem_nil _)
    · intro p b i b' i' hmem
      exact absurd hmem (List.not_mem_nil _)
  have hG0 : GroundInv [] := by
    intro x hx
    exact absurd hx (List.not_mem_nil _)
  have hNd0 : (([] ++ sortPairs (enumerate_from 0 bricks)).map Prod.snd).Nodup := by
    rw [List.nil_append]
    exact sorted_indices_nodup bricks
  have hNr0 : (∀ b ∈ bricks, b.lower.z ≤ b.upper.z) →
      ∀ x ∈ sortPairs (enumerate_from 0 bricks), x.1.lower.z ≤ x.1.upper.z := by
    intro h x hx
    have hx' : x ∈ enumerate_from 0 bricks := (sortPairs_perm _).mem_iff.mp hx
    obtain ⟨xb, xi⟩ := x
    exact h xb (enumerate_from_mem_fst hx')
  have hCd0 : (∀ b ∈ bricks, b.lower.z ≤ b.upper.z) → cdInv [] ∅ := by
    intro _ k
    simp
  obtain ⟨hO, hG, hmain⟩ := settle_bricks_inv (sortPairs (enumerate_from 0 bricks)) []
    surfaceEmpty ∅ (∀ b ∈ bricks, b.lower.z ≤ b.upper.z) hS0 List.Pairwise.nil hG0
    hNd0 (fun _ x hx => absurd hx (List.not_mem_nil _)) hNr0 hCd0 pairs cdF hrun
  rw [List.nil_append] at hO hG hmain
  exact ⟨hO, hG, hmain⟩

/-- C6: any two distinct settled bricks sharing a ground-plane cell occupy
disjoint z-ranges. -/
theorem c6_no_overlap (bricks : List Brick) (pairs : List (Brick × Nat))
    (cdF : Finset Nat)
    (hrun : settle_bricks surfaceEmpty ∅ (sortPairs (enumerate_from 0 bricks)) =
      some (pairs, cdF)) :
    compute_fallen_brick_positions bricks = some (pairs.map Prod.fst, cdF) ∧
    ∀ b i b' i', (b, i) ∈ pairs → (b', i') ∈ pairs → (b, i) ≠ (b', i') →
      ∀ p, onCell b p → onCell b' p →
        ∀ z, ¬(b.lower.z ≤ z ∧ z ≤ b.upper.z ∧ b'.lower.z ≤ z ∧ z ≤ b'.upper.z) := by
  obtain ⟨hO, _, _⟩ := settle_run_inv bricks pairs cdF hrun
  refine ⟨compute_eq_of_settle bricks pairs cdF hrun, ?_⟩
  intro b i b' i' hb hb' hne p hbp hb'p z hz
  have hsym : List.Pairwise (fun x y : Brick × Nat =>
      (∀ q, onCell x.1 q → onCell y.1 q → x.1.upper.z < y.1.lower.z) ∨
      (∀ q, onCell y.1 q → onCell x.1 q → y.1.upper.z < x.1.lower.z)) pairs :=
    hO.imp Or.inl
  have hcase := List.Pairwise.forall (fun x y h => h.symm) hsym hb hb' hne
  rcases hcase with hlt | hlt
  · have h2 : b.upper.z < b'.lower.z := hlt p hbp hb'p
    omega
  · have h2 : b'.upper.z < b.lower.z := hlt p hb'p hbp
    omega

/-- Witness for C6 on the two stacked bricks. -/
theorem c6_no_overlap_witness :
    compute_fallen_brick_positions stackedW =
      some (([(⟨⟨0, 0, 1⟩, ⟨0, 0, 1⟩, none⟩, 0),
             (⟨⟨0, 0, 2⟩, ⟨0, 0, 2⟩, none⟩, 1)] : List (Brick × Nat)).map Prod.fst, {1}) ∧
    ∀ b i b' i',
      (b, i) ∈ ([(⟨⟨0, 0, 1⟩, ⟨0, 0, 1⟩, none⟩, 0),
                 (⟨⟨0, 0, 2⟩, ⟨0, 0, 2⟩, none⟩, 1)] : List (Brick × Nat)) →
      (b', i') ∈ ([(⟨⟨0, 0, 1⟩, ⟨0, 0, 1⟩, none⟩, 0),
                   (⟨⟨0, 0, 2⟩, ⟨0, 0, 2⟩, none⟩, 1)] : List (Brick × Nat)) →
      (b, i) ≠ (b', i') →
      ∀ p, onCell b p → onCell b' p →
        ∀ z, ¬(b.lower.z ≤ z ∧ z ≤ b.upper.z ∧ b'.lower.z ≤ z ∧ z ≤ b'.upper.z) :=
  c6_no_overlap stackedW
    [(⟨⟨0, 0, 1⟩, ⟨0, 0, 1⟩, none⟩, 0), (⟨⟨0, 0, 2⟩, ⟨0, 0, 2⟩, none⟩, 1)] {1} (by decide)

/-- C7: every settled brick rests at z = 1 or directly on top of another
settled brick at a shared footprint cell. -/
theorem c7_ground_contact (bricks : List Brick) (pairs : List (Brick × Nat))
    (cdF : Finset Nat)
    (hrun : settle_bricks surfaceEmpty ∅ (sortPairs (enumerate_from 0 bricks)) =
      some (pairs, cdF)) :
    compute_fallen_brick_positions bricks = some (pairs.map Prod.fst, cdF) ∧
    ∀ x ∈ pairs, x.1.lower.z = 1 ∨
      ∃ y ∈ pairs, y ≠ x ∧ (∃ p, onCell y.1 p ∧ onCell x.1 p) ∧
        y.1.upper.z + 1 = x.1.lower.z := by
  obtain ⟨_, hG, _⟩ := settle_run_inv bricks pairs cdF hrun
  exact ⟨compute_eq_of_settle bricks pairs cdF hrun, hG⟩

/-- Witness for C7 on the two stacked bricks. -/
theorem c7_ground_contact_witness :
    compute_fallen_brick_positions stackedW =
      some (([(⟨⟨0, 0, 1⟩, ⟨0, 0, 1⟩, none⟩, 0),
             (⟨⟨0, 0, 2⟩, ⟨0, 0, 2⟩, none⟩, 1)] : List (Brick × Nat)).map Prod.fst, {1}) ∧
    ∀ x ∈ ([(⟨⟨0, 0, 1⟩, ⟨0, 0, 1⟩, none⟩, 0),
            (⟨⟨0, 0, 2⟩, ⟨0, 0, 2⟩, none⟩, 1)] : List (Brick × Nat)),
      x.1.lower.z = 1 ∨
      ∃ y ∈ ([(⟨⟨0, 0, 1⟩, ⟨0, 0, 1⟩, none⟩, 0),
              (⟨⟨0, 0, 2⟩, ⟨0, 0, 2⟩, none⟩, 1)] : List (Brick × Nat)),
        y ≠ x ∧ (∃ p, onCell y.1 p ∧ onCell x.1 p) ∧ y.1.upper.z + 1 = x.1.lower.z :=
  c7_ground_contact stackedW
    [(⟨⟨0, 0, 1⟩, ⟨0, 0, 1⟩, none⟩, 0), (⟨⟨0, 0, 2⟩, ⟨0, 0, 2⟩, none⟩, 1)] {1} (by decide)

/-- C2 counterexample: on `c2ex` (its first brick has `lower.z > upper.z`,
violating the Brick normalization invariant) the run completes, index 1 is
returned as removable, yet settled brick 1 is the sole supporter of settled
brick 0 — the claimed equivalence fails as stated over all brick lists. -/
theorem c2_counterexample :
    ∃ pairs cd,
      settle_bricks surfaceEmpty ∅ (sortPairs (enumerate_from 0 c2ex)) =
        some (pairs, cd) ∧
      compute_fallen_brick_positions c2ex = some (pairs.map Prod.fst, cd) ∧
      1 ∈ cd ∧
      ∃ c ∈ pairs, c.2 ≠ 1 ∧ sole_supporter_of pairs 1 c.1 := by
  refine ⟨[(⟨⟨0, 0, 1⟩, ⟨0, 0, -1⟩, none⟩, 0), (⟨⟨0, 0, 0⟩, ⟨0, 0, 0⟩, none⟩, 1)],
    {1}, by decide, by decide, by decide, ?_⟩
  refine ⟨(⟨⟨0, 0, 1⟩, ⟨0, 0, -1⟩, none⟩, 0), by decide, by decide, ?_, ?_⟩
  · refine ⟨⟨⟨0, 0, 0⟩, ⟨0, 0, 0⟩, none⟩, by decide, ⟨⟨0, 0⟩, by decide, by decide⟩,
      by decide⟩
  · rintro j ⟨a, haP, ⟨p, hap, hcp⟩, haz⟩
    rcases List.mem_cons.mp haP with heq | haP'
    · exfalso
      have ha : a = ⟨⟨0, 0, 1⟩, ⟨0, 0, -1⟩, none⟩ := congrArg Prod.fst heq
      rw [ha] at haz
      simp at haz
    · rcases List.mem_cons.mp haP' with heq | haP''
      · exact congrArg Prod.snd heq
      · exact absurd haP'' (List.not_mem_nil _)

/-- C2 (amended): for every brick list whose bricks satisfy the data-model
normalization `lower.z ≤ upper.z`, on which the run completes, the candidate
set contains an index exactly when its settled brick is not the sole
supporter of any other settled brick. -/
theorem c2_amended_removability (bricks : List Brick) (pairs : List (Brick × Nat))
    (cdF : Finset Nat)
    (hnorm : ∀ b ∈ bricks, b.lower.z ≤ b.upper.z)
    (hrun : settle_bricks surfaceEmpty ∅ (sortPairs (enumerate_from 0 bricks)) =
      some (pairs, cdF)) :
    compute_fallen_brick_positions bricks = some (pairs.map Prod.fst, cdF) ∧
    ∀ i, i ∈ cdF ↔ ((∃ b, (b, i) ∈ pairs) ∧
      ¬ ∃ c ∈ pairs, c.2 ≠ i ∧ sole_supporter_of pairs i c.1) := by
  obtain ⟨_, _, hmain⟩ := settle_run_inv bricks pairs cdF hrun
  obtain ⟨hnormP, hcd⟩ := hmain hnorm
  refine ⟨compute_eq_of_settle bricks pairs cdF hrun, ?_⟩
  intro i
  rw [hcd i]
  have hnd : (pairs.map Prod.snd).Nodup := by
    rw [forall₂_map_snd (settle_bricks_shape _ _ _ _ _ hrun)]
    exact sorted_indices_nodup bricks
  constructor
  · rintro ⟨hex, hnos⟩
    refine ⟨hex, ?_⟩
    rintro ⟨c, hc, _, hsol⟩
    exact hnos ⟨c, hc, hsol⟩
  · rintro ⟨hex, hnos⟩
    refine ⟨hex, ?_⟩
    rintro ⟨c, hc, hsol⟩
    apply hnos
    refine ⟨c, hc, ?_, hsol⟩
    intro hci
    obtain ⟨⟨a, haP, hshare, haz⟩, _⟩ := hsol
    have hciP : (c.1, i) ∈ pairs := by
      rw [← hci, Prod.mk.eta]
      exact hc
    have haeq : a = c.1 := nodup_snd_unique hnd haP hciP
    rw [haeq] at haz
    have := hnormP c hc
    omega

/-- Witness for C2 (amended) at the single-brick input. -/
theorem c2_amended_removability_witness :
    compute_fallen_brick_positions singleW =
      some (([(⟨⟨0, 0, 1⟩, ⟨0, 0, 1⟩, none⟩, 0)] : List (Brick × Nat)).map Prod.fst, {0}) ∧
    ∀ i, i ∈ ({0} : Finset Nat) ↔
      ((∃ b, (b, i) ∈ ([(⟨⟨0, 0, 1⟩, ⟨0, 0, 1⟩, none⟩, 0)] : List (Brick × Nat))) ∧
      ¬ ∃ c ∈ ([(⟨⟨0, 0, 1⟩, ⟨0, 0, 1⟩, none⟩, 0)] : List (Brick × Nat)),
        c.2 ≠ i ∧ sole_supporter_of [(⟨⟨0, 0, 1⟩, ⟨0, 0, 1⟩, none⟩, 0)] i c.1) :=
  c2_amended_removability singleW [(⟨⟨0, 0, 1⟩, ⟨0, 0, 1⟩, none⟩, 0)] {0}
    (by decide) (by decide)
